import Mathlib

/-!
Verification of the email-blaster core (src/app.py) against its
natural-language specification.

The development shallowly embeds the core pipeline of the program:
column-to-field detection (`detect_columns`), per-cell address extraction
(the `re.split` call), template rendering (the per-field `str.replace`
loop), the dispatch loop with its per-address outcome records, the
attachment staging / cleanup skeleton of the "Send Now" handler, and the
Excel log export.  Strings are handled as `String` / `List Char`;
spreadsheet cells are `Option String` where `none` models a missing (NaN)
cell and `some s` models a cell whose `str()` form is `s`.
-/

namespace EmailBlaster

/-! ## Field detection (src/app.py, `normalize` / `FIELD_MAP` / `detect_columns`) -/

/-- Embedding of `normalize`: lower-case, then keep only characters in
`[a-z0-9]` (Python `re.sub(r"[^a-z0-9]", "", text.lower())`; ASCII
lower-casing, which agrees with Python on the ASCII column names in use). -/
def normalize (s : String) : String :=
  String.mk ((s.data.map Char.toLower).filter fun c => c.isLower || c.isDigit)

/-- Embedding of the `FIELD_MAP` alias table, in its literal order. -/
def FIELD_MAP : List (String × List String) :=
  [("email", ["email", "mail", "e-mail", "emailaddress", "emailid"]),
   ("name", ["name", "fullname", "full name", "nama", "nama lengkap"]),
   ("company", ["company", "organization", "org", "perusahaan", "instansi"]),
   ("position", ["position", "jobtitle", "title", "jabatan", "role"])]

/-- Python substring containment `a in b` on strings, at the `List Char`
level: `a` occurs contiguously inside `b`. -/
def infixOfB (a : List Char) : List Char → Bool
  | [] => a.isPrefixOf []
  | c :: bs => a.isPrefixOf (c :: bs) || infixOfB a bs

/-- Python substring containment for `String`s. -/
def substrB (a b : String) : Bool := infixOfB a.data b.data

/-- Value update at one key, used by `dictInsert`. -/
def updEntry (k v : String) (kv : String × String) : String × String :=
  if kv.1 == k then (k, v) else kv

/-- Python dict assignment `d[k] = v` for an insertion-ordered dict
represented as an association list: an existing key keeps its position and
gets the new value, a new key is appended at the end. -/
def dictInsert (d : List (String × String)) (k v : String) :
    List (String × String) :=
  if d.any (fun kv => kv.1 == k) then d.map (updEntry k v)
  else d ++ [(k, v)]

/-- Embedding of `normalized_cols = {normalize(c): c for c in df.columns}`:
a dict comprehension, so a later column with the same normalized name
overwrites the value stored for that key. -/
def buildNormCols (cols : List String) : List (String × String) :=
  cols.foldl (fun d c => dictInsert d (normalize c) c) []

/-- Embedding of the alias-matching loop of `detect_columns`: scan aliases
in declared order and, for each, scan the normalized-column dict in
insertion order, accepting the first entry whose key is a substring of the
normalized alias or vice versa. -/
def aliasFind (aliases : List String) (ncols : List (String × String)) :
    Option String :=
  aliases.findSome? fun al =>
    (ncols.find? fun nc =>
      substrB (normalize al) nc.1 || substrB nc.1 (normalize al)).map
      (fun nc => nc.2)

/-- Column chosen for one semantic field: the `email` field first tries the
exact normalized match `norm == "email"` and, when that fails, falls
through to the alias loop (the `continue` in the source is only reached
when the exact match succeeded); every other field goes straight to the
alias loop. -/
def hitOf (ncols : List (String × String)) (field : String)
    (aliases : List String) : Option String :=
  if field == "email" then
    match ncols.find? (fun nc => nc.1 == "email") with
    | some nc => some nc.2
    | none => aliasFind aliases ncols
  else aliasFind aliases ncols

/-- One iteration of the `for field, aliases in FIELD_MAP.items()` loop:
`detected[field] = real` appends the field (fields are pairwise distinct
in `FIELD_MAP`, so each is assigned at most once). -/
def detectStep (ncols : List (String × String))
    (detected : List (String × String)) (fa : String × List String) :
    List (String × String) :=
  match hitOf ncols fa.1 fa.2 with
  | some real => detected ++ [(fa.1, real)]
  | none => detected

/-- Embedding of `detect_columns` (on the ordered list of column names):
fields are processed in `FIELD_MAP` order and each detected field is
recorded once, so the result is an association list keyed by field. -/
def detect_columns (cols : List String) : List (String × String) :=
  FIELD_MAP.foldl (detectStep (buildNormCols cols)) []

/-! ## Address extraction (src/app.py, `re.split(r"[\/,; ]+", ...)`) -/

/-- Delimiter class of the split pattern: `/`, `,`, `;`, space. -/
def isDelim (c : Char) : Bool := c == '/' || c == ',' || c == ';' || c == ' '

/-- Worker for `re.split` with a one-or-more character-class pattern.  The
`inRun` flag records whether the scan is inside a delimiter run; `cur` is
the reversed current token. -/
def rsplitAux (p : Char → Bool) : List Char → Bool → List Char →
    List (List Char)
  | [], true, _ => [[]]
  | [], false, cur => [cur.reverse]
  | c :: cs, true, _ =>
      if p c then rsplitAux p cs true [] else rsplitAux p cs false [c]
  | c :: cs, false, cur =>
      if p c then cur.reverse :: rsplitAux p cs true []
      else rsplitAux p cs false (c :: cur)

/-- Embedding of `re.split(r"[…]+", s)`: split at maximal runs of
delimiter characters, keeping the (possibly empty) fragments before the
first run and after the last run. -/
def rsplit (p : Char → Bool) (l : List Char) : List (List Char) :=
  rsplitAux p l false []

/-- Reference splitter used to state C5: split at every single delimiter
character (adjacent delimiters leave empty fragments behind). -/
def splitEach (p : Char → Bool) : List Char → List (List Char)
  | [] => [[]]
  | c :: cs =>
      if p c then [] :: splitEach p cs
      else (splitEach p cs).modifyHead (fun t => c :: t)

/-- Token filter of the extractor: Python `"@" in e`. -/
def hasAt (t : List Char) : Bool := t.contains '@'

/-- Embedding of the address extractor: split the raw cell text and keep
the tokens containing `@`, in order. -/
def extract (s : String) : List String :=
  ((rsplit isDelim s.data).filter hasAt).map String.mk

/-! ## Cell conversions -/

/-- Rendering conversion: `"" if pd.isna(v) else str(v)`. -/
def cellText : Option String → String
  | none => ""
  | some s => s

/-- Extraction conversion `str(row[email_col])`: Python prints a missing
(NaN) cell as the text `nan`, which contains no `@` and hence yields no
addresses. -/
def cellStr : Option String → String
  | none => "nan"
  | some s => s

/-! ## Template rendering (src/app.py, the per-field `body.replace` loop) -/

/-- Fuel-driven worker for Python `str.replace`: scan left to right; at a
position where the pattern matches, emit the replacement and resume after
the consumed occurrence (the replacement text is not rescanned); otherwise
keep one character.  The fuel is always at least the length of the
remaining text, so it never runs out. -/
def replaceCore (pat rep : List Char) : Nat → List Char → List Char
  | _, [] => []
  | 0, s => s
  | fuel + 1, c :: cs =>
      if pat.isPrefixOf (c :: cs) then
        rep ++ replaceCore pat rep fuel (cs.drop (pat.length - 1))
      else c :: replaceCore pat rep fuel cs

/-- Embedding of Python `s.replace(pat, rep)` for a non-empty pattern (the
patterns used by the program are always of the form `{field}`). -/
def replaceAll (pat rep s : List Char) : List Char :=
  if pat.isEmpty then s else replaceCore pat rep s.length s

/-- Placeholder token `"{" + field + "}"` at the character level. -/
def phTok (f : List Char) : List Char := '{' :: (f ++ ['}'])

/-- Embedding of the rendering loop
`for field, col in detected_fields.items(): body = body.replace(...)`:
sequential replacement on the progressively rewritten body, in mapping
iteration order, substituting `""` for a missing cell and the cell text
otherwise. -/
def renderBody (mapping : List (String × String))
    (row : String → Option String) (t : List Char) : List Char :=
  mapping.foldl
    (fun body fc => replaceAll (phTok fc.1.data) (cellText (row fc.2)).data body)
    t

/-! ### Structured templates, used to state the rendering claims -/

/-- Character list containing neither brace, so that it cannot create or
break a placeholder token. -/
def braceFree (l : List Char) : Bool := l.all fun c => !(c == '{' || c == '}')

/-- Structured view of a template: literal chunks and placeholders. -/
inductive TPart where
  | lit (s : List Char)
  | ph (f : String)

/-- Flatten a structured template to its raw text. -/
def assemble : List TPart → List Char
  | [] => []
  | .lit s :: ps => s ++ assemble ps
  | .ph f :: ps => phTok f.data ++ assemble ps

/-- Well-formedness of a structured template: literal chunks and
placeholder names contain no braces. -/
def partsOK : List TPart → Bool
  | [] => true
  | .lit s :: ps => braceFree s && partsOK ps
  | .ph f :: ps => braceFree f.data && partsOK ps

/-- Replace every placeholder of one field by a literal value. -/
def substOne (f : String) (v : List Char) : List TPart → List TPart
  | [] => []
  | .lit s :: ps => .lit s :: substOne f v ps
  | .ph g :: ps => (if g == f then .lit v else .ph g) :: substOne f v ps

/-- Rendering as the specification describes it: every placeholder of a
mapped field becomes the row's value at the mapped column (missing cell ↦
empty string), placeholders of unmapped fields stay literal. -/
def renderParts (mapping : List (String × String))
    (row : String → Option String) : List TPart → List Char
  | [] => []
  | .lit s :: ps => s ++ renderParts mapping row ps
  | .ph f :: ps =>
      (match List.lookup f mapping with
       | some col => (cellText (row col)).data
       | none => phTok f.data) ++ renderParts mapping row ps

/-! ## Dispatch loop (src/app.py, the `for idx, row in df.iterrows()` loop) -/

/-- One row of the in-memory log `logs`: the list
`[idx, email, status, details, timestamp]` appended by the handler.
Timestamps (`datetime.utcnow()`) are modelled as opaque `Nat` values
supplied by a clock oracle. -/
structure LogEntry where
  row : Nat
  email : String
  status : String
  details : String
  ts : Nat
deriving Repr, DecidableEq

/-- Record appended for one send attempt: `SENT`/`OK` on success,
`FAILED` with the exception text on error. -/
def sendRecord (idx : Nat) (addr : String) (res : Except String Unit)
    (t : Nat) : LogEntry :=
  match res with
  | .ok _ => ⟨idx, addr, "SENT", "OK", t⟩
  | .error msg => ⟨idx, addr, "FAILED", msg, t⟩

/-- Processing of a single row of the dataset, embedding lines 433-461 of
src/app.py.  `oracle k` is the outcome of the `yag.send` call for the
`k`-th extracted address of this row (each invocation is independent);
`clock k` stamps the `k`-th record of the row.  The result is the list of
log records appended for the row together with the trace of send
invocations `(idx, address, rendered body)`, in order. -/
def rowDispatch (oracle : Nat → Except String Unit) (clock : Nat → Nat)
    (mapping : List (String × String)) (emailCol : String)
    (template : List Char) (idx : Nat) (row : String → Option String) :
    List LogEntry × List (Nat × String × List Char) :=
  let body := renderBody mapping row template
  let emails := extract (cellStr (row emailCol))
  if emails.isEmpty then
    ([⟨idx, "", "NO_EMAIL", "SKIPPED", clock 0⟩], [])
  else
    (emails.enum.map (fun ke => sendRecord idx ke.2 (oracle ke.1) (clock ke.1)),
     emails.map (fun e => (idx, e, body)))

/-- The whole dispatch loop over the dataset: rows are processed in order,
the row index of `df.iterrows()` being the position in the default range
index.  Returns the concatenated log and the concatenated send trace. -/
def dispatch (oracle : Nat → Nat → Except String Unit)
    (clock : Nat → Nat → Nat) (mapping : List (String × String))
    (emailCol : String) (template : List Char)
    (rows : List (String → Option String)) :
    List LogEntry × List (Nat × String × List Char) :=
  let blocks := rows.enum.map fun ir =>
    rowDispatch (oracle ir.1) (clock ir.1) mapping emailCol template ir.1 ir.2
  (blocks.flatMap (fun b => b.1), blocks.flatMap (fun b => b.2))

/-! ## The "Send Now" handler skeleton (validation, staging, login, loop,
cleanup), embedding lines 388-475 of src/app.py -/

/-- Observable effects of one run of the handler. -/
inductive Ev where
  | staged (p : String)
  | sendCall (row : Nat) (addr : String)
  | unlinked (p : String)
  | stopped
deriving Repr, DecidableEq

/-- Staging of the uploaded attachments into temporary files: each upload
either yields a staged path or raises (`none`), in which case the handler
stops at once and the files staged so far are left behind. -/
def stageFiles : List (Option String) → List String × Bool
  | [] => ([], true)
  | none :: _ => ([], false)
  | some p :: rest =>
      let r := stageFiles rest
      (p :: r.1, r.2)

/-- Embedding of the "Send Now" handler from the validation block to the
final cleanup.  `pre` is the conjunction of the five precondition checks
(dataset, detected email column, credentials, subject, body), all of which
run before any staging; `stageOut` gives the staging outcome per uploaded
file; `loginOk` is the outcome of `yagmail.SMTP(...)`; `unlinkOk p` tells
whether `os.unlink(p)` succeeds (its exceptions are swallowed by the
`try/except: pass`).  The result is the event trace, the temporary files
still existing at the end, and the in-memory log. -/
def sendNow (pre : Bool) (stageOut : List (Option String)) (loginOk : Bool)
    (oracle : Nat → Nat → Except String Unit) (clock : Nat → Nat → Nat)
    (mapping : List (String × String)) (emailCol : String)
    (template : List Char) (rows : List (String → Option String))
    (unlinkOk : String → Bool) :
    List Ev × List String × List LogEntry :=
  if pre = false then ([.stopped], [], [])
  else
    let st := stageFiles stageOut
    let stagedEvs := st.1.map Ev.staged
    if st.2 = false then (stagedEvs ++ [.stopped], st.1, [])
    else if loginOk = false then (stagedEvs ++ [.stopped], st.1, [])
    else
      let d := dispatch oracle clock mapping emailCol template rows
      (stagedEvs ++ d.2.map (fun c => Ev.sendCall c.1 c.2.1) ++
         st.1.map Ev.unlinked,
       st.1.filter (fun p => !unlinkOk p), d.1)

/-! ## Excel log export (src/app.py, `export_logs_excel`) -/

/-- Typed spreadsheet cell as written by openpyxl (`ws.append` keeps the
Python types: ints, strings and datetimes). -/
inductive XCell where
  | num (n : Nat)
  | str (s : String)
  | time (t : Nat)
deriving Repr, DecidableEq

/-- The five cells appended for one log record. -/
def serializeLog (e : LogEntry) : List XCell :=
  [.num e.row, .str e.email, .str e.status, .str e.details, .time e.ts]

/-- The fixed header row. -/
def headerCells : List XCell :=
  [.str "Row", .str "Email", .str "Status", .str "Details", .str "Timestamp"]

/-- Embedding of `export_logs_excel`: the worksheet as the list of its
rows — the header followed by one row per log record, in order.  The
temporary file name, bold header font, borders and column widths are
cosmetic and carry no cell values. -/
def export_logs_excel (logs : List LogEntry) : List (List XCell) :=
  headerCells :: logs.map serializeLog

/-- Re-reading one exported data row. -/
def parseRow : List XCell → Option LogEntry
  | [.num r, .str e, .str s, .str d, .time t] => some ⟨r, e, s, d, t⟩
  | _ => none

/-- Re-reading the exported artifact: check the header and parse the data
rows. -/
def parseExport : List (List XCell) → Option (List LogEntry)
  | [] => none
  | h :: rows => if h = headerCells then rows.mapM parseRow else none

/-! ## Lemmas about `replaceAll` -/

theorem replaceCore_congr (pat rep : List Char) :
    ∀ n m s, s.length ≤ n → s.length ≤ m →
      replaceCore pat rep n s = replaceCore pat rep m s := by
  intro n
  induction n with
  | zero =>
    intro m s hn _
    have hs : s = [] := List.eq_nil_of_length_eq_zero (Nat.le_zero.mp hn)
    subst hs
    cases m <;> rfl
  | succ n ih =>
    intro m s hn hm
    cases s with
    | nil => cases m <;> rfl
    | cons c cs =>
      cases m with
      | zero => simp at hm
      | succ m =>
        simp only [List.length_cons, Nat.add_le_add_iff_right] at hn hm
        simp only [replaceCore]
        by_cases h : pat.isPrefixOf (c :: cs) = true
        · simp only [h, if_true]
          have hd : (cs.drop (pat.length - 1)).length ≤ cs.length := by
            simp [List.length_drop]
          exact congrArg (rep ++ ·)
            (ih m _ (Nat.le_trans hd hn) (Nat.le_trans hd hm))
        · simp only [h, if_false]
          exact congrArg (c :: ·) (ih m _ hn hm)

theorem replaceAll_nil (pat rep : List Char) : replaceAll pat rep [] = [] := by
  unfold replaceAll
  split <;> rfl

theorem replaceAll_cons (pat rep : List Char) (hpat : pat ≠ [])
    (c : Char) (cs : List Char) :
    replaceAll pat rep (c :: cs) =
      if pat.isPrefixOf (c :: cs) then
        rep ++ replaceAll pat rep (cs.drop (pat.length - 1))
      else c :: replaceAll pat rep cs := by
  have hne : pat.isEmpty = false := by
    cases pat
    · exact absurd rfl hpat
    · rfl
  unfold replaceAll
  simp only [hne, Bool.false_eq_true, if_false, List.length_cons, replaceCore]
  by_cases h : pat.isPrefixOf (c :: cs) = true
  · simp only [h, if_true]
    exact congrArg (rep ++ ·)
      (replaceCore_congr pat rep cs.length _ _ (by simp [List.length_drop])
        (Nat.le_refl _))
  · simp [h]

theorem braceFree_mem {l : List Char} (h : braceFree l = true) {c : Char}
    (hc : c ∈ l) : c ≠ '{' ∧ c ≠ '}' := by
  simp only [braceFree, List.all_eq_true, Bool.not_eq_eq_eq_not, Bool.not_true,
    Bool.or_eq_false_iff, beq_eq_false_iff_ne, ne_eq] at h
  exact ⟨(h c hc).1, (h c hc).2⟩

theorem phTok_ne_nil (f : List Char) : phTok f ≠ [] := by
  simp [phTok]

/-- A chunk with no opening brace passes through `replaceAll` untouched
when the pattern starts with an opening brace. -/
theorem replaceAll_append_lit (pat rep : List Char) (hp : ∃ p, pat = '{' :: p)
    (s t : List Char) (hs : ∀ c ∈ s, c ≠ '{') :
    replaceAll pat rep (s ++ t) = s ++ replaceAll pat rep t := by
  obtain ⟨p, rfl⟩ := hp
  induction s with
  | nil => simp
  | cons c s ih =>
    have hc : c ≠ '{' := hs c (List.mem_cons_self c s)
    have hpre : ('{' :: p).isPrefixOf (c :: (s ++ t)) = false := by
      simp only [List.isPrefixOf]
      simp only [Bool.and_eq_false_iff]
      left
      simpa [beq_eq_false_iff_ne] using fun h => hc h.symm
    rw [List.cons_append, replaceAll_cons _ _ (by simp) c (s ++ t), hpre]
    simp only [Bool.false_eq_true, if_false, List.cons_append]
    exact congrArg (c :: ·) (ih fun d hd => hs d (List.mem_cons_of_mem c hd))

/-- A placeholder occurrence of the replaced field is substituted and the
scan resumes after it. -/
theorem replaceAll_tok (f rep t : List Char) :
    replaceAll (phTok f) rep (phTok f ++ t) = rep ++ replaceAll (phTok f) rep t := by
  have hpre : (phTok f).isPrefixOf (phTok f ++ t) = true :=
    List.isPrefixOf_iff_prefix.mpr (List.prefix_append _ _)
  have hsplit : phTok f ++ t = '{' :: ((f ++ ['}']) ++ t) := by
    simp [phTok]
  rw [hsplit]
  rw [replaceAll_cons _ _ (phTok_ne_nil f) '{' ((f ++ ['}']) ++ t)]
  rw [← hsplit, hpre]
  simp only [if_true]
  have hlen : (phTok f).length - 1 = (f ++ ['}']).length := by
    simp [phTok]
  rw [hlen, List.drop_left]

/-- Helper for distinct placeholders: a brace-free name followed by a
closing brace can only be a prefix of another such token when the names
agree. -/
theorem rbrace_prefix_eq {t : List Char} :
    ∀ f g : List Char, (∀ c ∈ f, c ≠ '}') → (∀ c ∈ g, c ≠ '}') →
      (f ++ ['}']) <+: (g ++ '}' :: t) → f = g := by
  intro f
  induction f with
  | nil =>
    intro g hf hg h
    cases g with
    | nil => rfl
    | cons b g =>
      exfalso
      rw [List.nil_append, List.cons_append] at h
      rw [List.cons_prefix_cons] at h
      exact hg b (List.mem_cons_self b g) h.1.symm
  | cons a f ih =>
    intro g hf hg h
    cases g with
    | nil =>
      exfalso
      rw [List.cons_append, List.nil_append, List.cons_prefix_cons] at h
      exact hf a (List.mem_cons_self a f) h.1
    | cons b g =>
      rw [List.cons_append, List.cons_append, List.cons_prefix_cons] at h
      have := ih g (fun c hc => hf c (List.mem_cons_of_mem a hc))
        (fun c hc => hg c (List.mem_cons_of_mem b hc)) h.2
      rw [h.1, this]

/-- A placeholder of a different brace-free field passes through
`replaceAll` untouched. -/
theorem replaceAll_ph_ne (f g rep t : List Char) (hf : braceFree f = true)
    (hg : braceFree g = true) (hne : f ≠ g) :
    replaceAll (phTok f) rep (phTok g ++ t) = phTok g ++ replaceAll (phTok f) rep t := by
  have hsplit : phTok g ++ t = '{' :: (g ++ '}' :: t) := by
    simp [phTok]
  have hpre : (phTok f).isPrefixOf ('{' :: (g ++ '}' :: t)) = false := by
    by_contra hcon
    have htrue : (phTok f).isPrefixOf ('{' :: (g ++ '}' :: t)) = true := by
      revert hcon
      cases (phTok f).isPrefixOf ('{' :: (g ++ '}' :: t)) <;> simp
    rw [List.isPrefixOf_iff_prefix] at htrue
    rw [show phTok f = '{' :: (f ++ ['}']) from rfl, List.cons_prefix_cons] at htrue
    exact hne (rbrace_prefix_eq f g
      (fun c hc => (braceFree_mem hf hc).2)
      (fun c hc => (braceFree_mem hg hc).2) htrue.2)
  rw [hsplit, replaceAll_cons _ _ (phTok_ne_nil f) _ _, hpre]
  simp only [Bool.false_eq_true, if_false]
  rw [replaceAll_append_lit (phTok f) rep ⟨f ++ ['}'], rfl⟩ g ('}' :: t)
    (fun c hc => (braceFree_mem hg hc).1)]
  have hpre2 : (phTok f).isPrefixOf ('}' :: t) = false := by
    simp only [phTok, List.isPrefixOf]
    simp
  rw [replaceAll_cons _ _ (phTok_ne_nil f) '}' t, hpre2]
  simp [phTok]

/-- One `body.replace("{field}", value)` pass over a well-formed template
replaces exactly the placeholders of that field. -/
theorem replaceAll_assemble (f : String) (v : List Char)
    (hf : braceFree f.data = true) :
    ∀ ps : List TPart, partsOK ps = true →
      replaceAll (phTok f.data) v (assemble ps) = assemble (substOne f v ps) := by
  intro ps
  induction ps with
  | nil =>
    intro _
    simp [assemble, substOne, replaceAll_nil]
  | cons part ps ih =>
    intro hok
    cases part with
    | lit s =>
      have hs : braceFree s = true ∧ partsOK ps = true := by
        simpa [partsOK, Bool.and_eq_true] using hok
      simp only [assemble, substOne]
      rw [replaceAll_append_lit (phTok f.data) v ⟨f.data ++ ['}'], rfl⟩ s
        (assemble ps) (fun c hc => (braceFree_mem hs.1 hc).1)]
      rw [ih hs.2]
    | ph g =>
      have hs : braceFree g.data = true ∧ partsOK ps = true := by
        simpa [partsOK, Bool.and_eq_true] using hok
      by_cases hgf : g = f
      · subst hgf
        simp only [assemble, substOne, beq_self_eq_true, if_true]
        rw [replaceAll_tok, ih hs.2]
      · have hbeq : (g == f) = false := by
          simpa [beq_eq_false_iff_ne] using hgf
        have hdata : f.data ≠ g.data := fun hd =>
          hgf (String.ext hd).symm
        simp only [assemble, substOne, hbeq, Bool.false_eq_true, if_false]
        rw [replaceAll_ph_ne f.data g.data v (assemble ps) hf hs.1 hdata]
        rw [ih hs.2]

theorem renderBody_nil (row : String → Option String) (t : List Char) :
    renderBody [] row t = t := rfl

theorem renderBody_cons (f col : String) (rest : List (String × String))
    (row : String → Option String) (t : List Char) :
    renderBody ((f, col) :: rest) row t =
      renderBody rest row (replaceAll (phTok f.data) (cellText (row col)).data t) :=
  rfl

theorem renderParts_nil_map (row : String → Option String) :
    ∀ ps : List TPart, renderParts [] row ps = assemble ps := by
  intro ps
  induction ps with
  | nil => rfl
  | cons part ps ih =>
    cases part with
    | lit s => simp [renderParts, assemble, ih]
    | ph g => simp [renderParts, assemble, ih]

theorem partsOK_substOne (f : String) (v : List Char) (hv : braceFree v = true) :
    ∀ ps : List TPart, partsOK ps = true → partsOK (substOne f v ps) = true := by
  intro ps
  induction ps with
  | nil => intro _; rfl
  | cons part ps ih =>
    intro hok
    cases part with
    | lit s =>
      have hs : braceFree s = true ∧ partsOK ps = true := by
        simpa [partsOK, Bool.and_eq_true] using hok
      simp [substOne, partsOK, hs.1, ih hs.2]
    | ph g =>
      have hs : braceFree g.data = true ∧ partsOK ps = true := by
        simpa [partsOK, Bool.and_eq_true] using hok
      by_cases hgf : (g == f) = true
      · simp [substOne, hgf, partsOK, hv, ih hs.2]
      · simp only [substOne, hgf] at *
        simp [partsOK, hs.1, ih hs.2, Bool.false_eq_true, if_false]

theorem renderParts_substOne (f col : String) (rest : List (String × String))
    (row : String → Option String) :
    ∀ ps : List TPart,
      renderParts rest row (substOne f (cellText (row col)).data ps) =
        renderParts ((f, col) :: rest) row ps := by
  intro ps
  induction ps with
  | nil => rfl
  | cons part ps ih =>
    cases part with
    | lit s => simp [substOne, renderParts, ih]
    | ph g =>
      by_cases hgf : (g == f) = true
      · have : g = f := by simpa using hgf
        subst this
        simp [substOne, renderParts, assemble, List.lookup_cons, hgf, ih]
      · have hbeq : (g == f) = false := by
          revert hgf
          cases g == f <;> simp
        simp [substOne, renderParts, List.lookup_cons, hbeq, ih]

/-- C6: rendering a well-formed template (brace-free literal chunks,
brace-free placeholder names, brace-free substituted values) replaces
every occurrence of `{field}` for each mapped field with the row's value
at the mapped column — a missing/null cell becoming the empty string via
`cellText` and any other cell its text form — while placeholders of
unmapped fields remain literal text; rendering is a total function, so no
unresolved placeholder can raise an error. -/
theorem render_replaces_mapped_placeholders
    (mapping : List (String × String)) (row : String → Option String) :
    ∀ ps : List TPart,
      (∀ fc ∈ mapping, braceFree fc.1.data = true ∧
        braceFree (cellText (row fc.2)).data = true) →
      partsOK ps = true →
      renderBody mapping row (assemble ps) = renderParts mapping row ps := by
  induction mapping with
  | nil =>
    intro ps _ _
    rw [renderBody_nil, renderParts_nil_map]
  | cons fc rest ih =>
    intro ps hm hok
    obtain ⟨f, col⟩ := fc
    have hf := hm (f, col) (List.mem_cons_self _ _)
    rw [renderBody_cons,
      replaceAll_assemble f (cellText (row col)).data hf.1 ps hok,
      ih (substOne f (cellText (row col)).data ps)
        (fun fc2 h2 => hm fc2 (List.mem_cons_of_mem _ h2))
        (partsOK_substOne f _ hf.2 ps hok)]
    exact renderParts_substOne f col rest row ps

/-- Witness for C6 at the specification's example: mapping
`name ↦ "name"`, `company ↦ "company"`, row `name = "Ann"`,
`company = null`; rendering gives `"Hi Ann from "`. -/
theorem render_replaces_mapped_placeholders_witness :
    ((∀ fc ∈ ([("name", "name"), ("company", "company")] : List (String × String)),
        braceFree fc.1.data = true ∧
        braceFree (cellText ((fun c => if c = "name" then some "Ann" else none) fc.2)).data = true) ∧
      partsOK [TPart.lit "Hi ".data, TPart.ph "name",
        TPart.lit " from ".data, TPart.ph "company"] = true) ∧
    assemble [TPart.lit "Hi ".data, TPart.ph "name",
      TPart.lit " from ".data, TPart.ph "company"] = "Hi {name} from {company}".data ∧
    renderBody [("name", "name"), ("company", "company")]
      (fun c => if c = "name" then some "Ann" else none)
      "Hi {name} from {company}".data = "Hi Ann from ".data := by
  refine ⟨⟨by decide, by decide⟩, by decide, ?_⟩
  have h := render_replaces_mapped_placeholders
    [("name", "name"), ("company", "company")]
    (fun c => if c = "name" then some "Ann" else none)
    [TPart.lit "Hi ".data, TPart.ph "name",
      TPart.lit " from ".data, TPart.ph "company"]
    (by decide) (by decide)
  have ha : assemble [TPart.lit "Hi ".data, TPart.ph "name",
      TPart.lit " from ".data, TPart.ph "company"] = "Hi {name} from {company}".data := by
    decide
  have hr : renderParts [("name", "name"), ("company", "company")]
      (fun c => if c = "name" then some "Ann" else none)
      [TPart.lit "Hi ".data, TPart.ph "name",
        TPart.lit " from ".data, TPart.ph "company"] = "Hi Ann from ".data := by
    decide
  rw [ha] at h
  rw [h, hr]

/-- C10: the renderer substitutes fields one at a time on the
progressively rewritten body, in mapping iteration order; hence when the
value of an earlier-iterated field contains the token of a later-iterated
mapped field, that injected token is substituted with the later field's
value instead of staying literal. -/
theorem render_sequential_injection
    (f g cf cg : String) (row : String → Option String) (a b vg : List Char)
    (hf : braceFree f.data = true) (hg : braceFree g.data = true)
    (hne : f ≠ g) (ha : braceFree a = true) (hb : braceFree b = true)
    (hvg : braceFree vg = true)
    (hcf : (cellText (row cf)).data = a ++ (phTok g.data ++ b))
    (hcg : (cellText (row cg)).data = vg) :
    (∀ t, renderBody [(f, cf), (g, cg)] row t =
        replaceAll (phTok g.data) vg
          (replaceAll (phTok f.data) (a ++ (phTok g.data ++ b)) t)) ∧
    renderBody [(f, cf), (g, cg)] row (phTok f.data) = a ++ (vg ++ b) := by
  have hseq : ∀ t, renderBody [(f, cf), (g, cg)] row t =
      replaceAll (phTok g.data) vg
        (replaceAll (phTok f.data) (a ++ (phTok g.data ++ b)) t) := by
    intro t
    rw [renderBody_cons, renderBody_cons, renderBody_nil, hcf, hcg]
  refine ⟨hseq, ?_⟩
  rw [hseq]
  have h1 : replaceAll (phTok f.data) (a ++ (phTok g.data ++ b)) (phTok f.data)
      = a ++ (phTok g.data ++ b) := by
    have h := replaceAll_tok f.data (a ++ (phTok g.data ++ b)) []
    simpa [replaceAll_nil] using h
  rw [h1]
  have hok : partsOK [TPart.lit a, TPart.ph g, TPart.lit b] = true := by
    simp [partsOK, ha, hg, hb]
  have h2 := replaceAll_assemble g vg hg [TPart.lit a, TPart.ph g, TPart.lit b] hok
  have hassem : assemble [TPart.lit a, TPart.ph g, TPart.lit b]
      = a ++ (phTok g.data ++ b) := by
    simp [assemble]
  rw [hassem] at h2
  rw [h2]
  simp [substOne, assemble]

/-- Witness for C10: with mapping `name ↦ "name"`, `company ↦ "company"`
(in this order), row `name = "Dr. {company}!"`, `company = "ACME"`,
rendering the template `{name}` yields `"Dr. ACME!"`. -/
theorem render_sequential_injection_witness :
    (braceFree "name".data = true ∧ braceFree "company".data = true ∧
      ("name" : String) ≠ "company" ∧
      (cellText ((fun c => if c = "name" then some "Dr. {company}!"
        else if c = "company" then some "ACME" else none) "name")).data =
          "Dr. ".data ++ (phTok "company".data ++ "!".data)) ∧
    renderBody [("name", "name"), ("company", "company")]
      (fun c => if c = "name" then some "Dr. {company}!"
        else if c = "company" then some "ACME" else none)
      (phTok "name".data) = "Dr. ".data ++ ("ACME".data ++ "!".data) := by
  refine ⟨⟨by decide, by decide, by decide, by decide⟩, ?_⟩
  exact (render_sequential_injection "name" "company" "name" "company"
    (fun c => if c = "name" then some "Dr. {company}!"
      else if c = "company" then some "ACME" else none)
    "Dr. ".data "!".data "ACME".data
    (by decide) (by decide) (by decide) (by decide) (by decide) (by decide)
    (by decide) (by decide)).2

/-! ## Lemmas about the splitter -/

theorem modifyHead_comp (f g : List Char → List Char) (l : List (List Char)) :
    (l.modifyHead g).modifyHead f = l.modifyHead (fun t => f (g t)) := by
  cases l <;> simp

theorem rsplitAux_false_acc (p : Char → Bool) :
    ∀ (l : List Char) (cur : List Char),
      rsplitAux p l false cur =
        (rsplitAux p l false []).modifyHead (fun t => cur.reverse ++ t) := by
  intro l
  induction l with
  | nil => intro cur; simp [rsplitAux]
  | cons c cs ih =>
    intro cur
    cases hc : p c with
    | true => simp [rsplitAux, hc]
    | false =>
      simp only [rsplitAux, hc, Bool.false_eq_true, if_false]
      rw [ih (c :: cur), ih [c], modifyHead_comp]
      congr 1
      funext t
      simp

theorem rsplit_nil (p : Char → Bool) : rsplit p [] = [[]] := rfl

theorem rsplit_cons_pos (p : Char → Bool) (c : Char) (cs : List Char)
    (hc : p c = true) : rsplit p (c :: cs) = [] :: rsplitAux p cs true [] := by
  simp [rsplit, rsplitAux, hc]

theorem rsplit_cons_neg (p : Char → Bool) (c : Char) (cs : List Char)
    (hc : p c = false) :
    rsplit p (c :: cs) = (rsplit p cs).modifyHead (fun t => c :: t) := by
  simp only [rsplit, rsplitAux, hc, Bool.false_eq_true, if_false]
  rw [rsplitAux_false_acc p cs [c]]
  congr 1

theorem rsplitAux_true_eq (p : Char → Bool) :
    ∀ l, rsplitAux p l true [] = rsplit p (l.dropWhile p) := by
  intro l
  induction l with
  | nil => rfl
  | cons c cs ih =>
    cases hc : p c with
    | true =>
      rw [List.dropWhile_cons_of_pos hc]
      simpa [rsplitAux, hc] using ih
    | false =>
      rw [List.dropWhile_cons_of_neg (by simp [hc])]
      simp only [rsplitAux, hc, Bool.false_eq_true, if_false]
      rw [rsplitAux_false_acc p cs [c], rsplit_cons_neg p c cs hc]
      congr 1

theorem rsplit_ne_nil (p : Char → Bool) : ∀ l, rsplit p l ≠ [] := by
  intro l
  induction l with
  | nil => simp [rsplit_nil]
  | cons c cs ih =>
    cases hc : p c with
    | true => simp [rsplit_cons_pos p c cs hc]
    | false =>
      rw [rsplit_cons_neg p c cs hc]
      cases h : rsplit p cs with
      | nil => exact absurd h ih
      | cons a as => simp

theorem splitEach_ne_nil (p : Char → Bool) : ∀ l, splitEach p l ≠ [] := by
  intro l
  induction l with
  | nil => simp [splitEach]
  | cons c cs ih =>
    cases hc : p c with
    | true => simp [splitEach, hc]
    | false =>
      simp only [splitEach, hc, Bool.false_eq_true, if_false]
      cases h : splitEach p cs with
      | nil => exact absurd h ih
      | cons a as => simp

theorem rsplit_head? (p : Char → Bool) :
    ∀ l, (rsplit p l).head? = some (l.takeWhile fun c => !p c) := by
  intro l
  induction l with
  | nil => rfl
  | cons c cs ih =>
    cases hc : p c with
    | true =>
      rw [rsplit_cons_pos p c cs hc]
      simp [List.takeWhile_cons, hc]
    | false =>
      rw [rsplit_cons_neg p c cs hc]
      cases h : rsplit p cs with
      | nil => exact absurd h (rsplit_ne_nil p cs)
      | cons a as =>
        rw [h] at ih
        simp only [List.head?_cons, Option.some.injEq] at ih
        simp [List.takeWhile_cons, hc, ih]

theorem splitEach_head? (p : Char → Bool) :
    ∀ l, (splitEach p l).head? = some (l.takeWhile fun c => !p c) := by
  intro l
  induction l with
  | nil => rfl
  | cons c cs ih =>
    cases hc : p c with
    | true => simp [splitEach, hc, List.takeWhile_cons]
    | false =>
      simp only [splitEach, hc, Bool.false_eq_true, if_false]
      cases h : splitEach p cs with
      | nil => exact absurd h (splitEach_ne_nil p cs)
      | cons a as =>
        rw [h] at ih
        simp only [List.head?_cons, Option.some.injEq] at ih
        simp [List.takeWhile_cons, hc, ih]

theorem splitEach_filter_dropWhile (p : Char → Bool) (q : List Char → Bool)
    (hq : q [] = false) :
    ∀ l, (splitEach p (l.dropWhile p)).filter q = (splitEach p l).filter q := by
  intro l
  induction l with
  | nil => rfl
  | cons c cs ih =>
    cases hc : p c with
    | true =>
      rw [List.dropWhile_cons_of_pos hc, ih]
      simp [splitEach, hc, List.filter_cons, hq]
    | false =>
      rw [List.dropWhile_cons_of_neg (by simp [hc])]

theorem rsplit_filter_eq_splitEach (p : Char → Bool) (q : List Char → Bool)
    (hq : q [] = false) :
    ∀ n l, l.length ≤ n → (rsplit p l).filter q = (splitEach p l).filter q := by
  intro n
  induction n with
  | zero =>
    intro l hl
    have hnil : l = [] := List.eq_nil_of_length_eq_zero (Nat.le_zero.mp hl)
    subst hnil
    rfl
  | succ n ih =>
    intro l hl
    cases l with
    | nil => rfl
    | cons c cs =>
      simp only [List.length_cons, Nat.add_le_add_iff_right] at hl
      cases hc : p c with
      | true =>
        rw [rsplit_cons_pos p c cs hc, rsplitAux_true_eq p cs]
        have hd : (cs.dropWhile p).length ≤ n :=
          Nat.le_trans (List.dropWhile_sublist p).length_le hl
        calc ([] :: rsplit p (cs.dropWhile p)).filter q
            = (rsplit p (cs.dropWhile p)).filter q := by
              simp [List.filter_cons, hq]
          _ = (splitEach p (cs.dropWhile p)).filter q := ih _ hd
          _ = (splitEach p cs).filter q := splitEach_filter_dropWhile p q hq cs
          _ = (splitEach p (c :: cs)).filter q := by
              simp [splitEach, hc, List.filter_cons, hq]
      | false =>
        rw [rsplit_cons_neg p c cs hc]
        have hE : splitEach p (c :: cs) = (splitEach p cs).modifyHead (fun t => c :: t) := by
          simp [splitEach, hc]
        rw [hE]
        obtain ⟨h1, ts, hT⟩ : ∃ h1 ts, rsplit p cs = h1 :: ts := by
          cases h : rsplit p cs with
          | nil => exact absurd h (rsplit_ne_nil p cs)
          | cons a as => exact ⟨a, as, rfl⟩
        obtain ⟨h2, es, hEcs⟩ : ∃ h2 es, splitEach p cs = h2 :: es := by
          cases h : splitEach p cs with
          | nil => exact absurd h (splitEach_ne_nil p cs)
          | cons a as => exact ⟨a, as, rfl⟩
        have hheads : h1 = h2 := by
          have hH1 := rsplit_head? p cs
          have hH2 := splitEach_head? p cs
          rw [hT] at hH1
          rw [hEcs] at hH2
          simp only [List.head?_cons, Option.some.injEq] at hH1 hH2
          rw [hH1, hH2]
        subst hheads
        have hfil := ih cs hl
        rw [hT, hEcs] at hfil
        rw [hT, hEcs]
        simp only [List.modifyHead_cons]
        have htails : ts.filter q = es.filter q := by
          cases hqh : q h1 with
          | true =>
            simp only [List.filter_cons, hqh, if_true, List.cons.injEq] at hfil
            exact hfil.2
          | false =>
            simpa [List.filter_cons, hqh] using hfil
        cases hq2 : q (c :: h1) <;> simp [List.filter_cons, hq2, htails]

/-- C5: the address extractor splits the raw cell text at every run of
the characters `/`, `,`, `;`, space — a run acting as a single delimiter,
so the result after keeping only tokens containing `@` coincides with
splitting at every single delimiter character — and returns the kept
tokens in original left-to-right order; in particular
`extract "a@x.com/b@y.com; c" = ["a@x.com", "b@y.com"]` and
`extract "  " = []`. -/
theorem extract_splits_on_delimiter_runs :
    (∀ s : String, extract s =
      ((splitEach isDelim s.data).filter hasAt).map String.mk) ∧
    extract "a@x.com/b@y.com; c" = ["a@x.com", "b@y.com"] ∧
    extract "  " = [] := by
  refine ⟨?_, by decide, by decide⟩
  intro s
  simp only [extract]
  rw [rsplit_filter_eq_splitEach isDelim hasAt rfl s.data.length s.data
    (Nat.le_refl _)]

/-! ## Lemmas about the normalized-column dict and `detect_columns` -/

theorem lookup_updEntry_ne (k v n : String) (hnk : (n == k) = false) :
    ∀ d : List (String × String),
      List.lookup n (d.map (updEntry k v)) = List.lookup n d := by
  intro d
  induction d with
  | nil => rfl
  | cons ab d ih =>
    obtain ⟨a, b⟩ := ab
    rw [List.map_cons]
    by_cases hak : a = k
    · subst hak
      have hu : updEntry a v (a, b) = (a, v) := by simp [updEntry]
      rw [hu, List.lookup_cons, List.lookup_cons, hnk]
      exact ih
    · have hu : updEntry k v (a, b) = (a, b) := by simp [updEntry, hak]
      rw [hu, List.lookup_cons, List.lookup_cons]
      cases hna : n == a
      · exact ih
      · rfl

theorem lookup_updEntry_self (k v : String) :
    ∀ d : List (String × String), d.any (fun kv => kv.1 == k) = true →
      List.lookup k (d.map (updEntry k v)) = some v := by
  intro d
  induction d with
  | nil => intro h; simp at h
  | cons ab d ih =>
    intro h
    obtain ⟨a, b⟩ := ab
    rw [List.map_cons]
    by_cases hak : a = k
    · subst hak
      have hu : updEntry a v (a, b) = (a, v) := by simp [updEntry]
      rw [hu]
      simp
    · have hu : updEntry k v (a, b) = (a, b) := by simp [updEntry, hak]
      have hka : (k == a) = false := by
        simpa [beq_eq_false_iff_ne] using fun hh => hak hh.symm
      rw [hu, List.lookup_cons, hka]
      apply ih
      have hak2 : (a == k) = false := by simpa [beq_eq_false_iff_ne] using hak
      simpa [List.any_cons, hak2] using h

theorem lookup_dictInsert (d : List (String × String)) (k v n : String) :
    List.lookup n (dictInsert d k v) =
      if n == k then some v else List.lookup n d := by
  unfold dictInsert
  by_cases h : d.any (fun kv => kv.1 == k) = true
  · rw [if_pos h]
    cases hnk : n == k with
    | true =>
      have hn : n = k := by simpa using hnk
      subst hn
      rw [if_pos rfl]
      exact lookup_updEntry_self n v d h
    | false =>
      rw [if_neg (by simp [hnk])]
      exact lookup_updEntry_ne k v n hnk d
  · rw [if_neg h]
    rw [List.lookup_append]
    cases hnk : n == k with
    | true =>
      have hn : n = k := by simpa using hnk
      subst hn
      have hnone : List.lookup n d = none := by
        rw [List.lookup_eq_none_iff]
        intro p hp
        have hp2 : ¬ (p.1 == n) = true := fun hcon =>
          h (List.any_eq_true.mpr ⟨p, hp, hcon⟩)
        have hpn : p.1 ≠ n := by simpa using hp2
        simpa [bne_iff_ne] using fun hh => hpn hh.symm
      rw [hnone, if_pos rfl]
      simp [List.lookup_cons]
    | false =>
      have hsingle : List.lookup n [(k, v)] = none := by
        simp [List.lookup_cons, hnk]
      rw [hsingle, Option.or_none, if_neg (by simp [hnk])]

/-- Looking a normalized name up in the column dict finds the LAST column
of the dataset having that normalized name. -/
theorem lookup_buildFrom (n : String) :
    ∀ (cols : List String) (d : List (String × String)),
      List.lookup n (cols.foldl (fun d c => dictInsert d (normalize c) c) d) =
        (cols.reverse.find? fun c => normalize c == n).or (List.lookup n d) := by
  intro cols
  induction cols with
  | nil => intro d; simp
  | cons c cs ih =>
    intro d
    rw [List.foldl_cons, ih (dictInsert d (normalize c) c)]
    rw [List.reverse_cons, List.find?_append, lookup_dictInsert]
    rw [Option.or_assoc]
    congr 1
    cases hnc : n == normalize c with
    | true =>
      have hn : n = normalize c := by simpa using hnc
      subst hn
      simp [List.find?]
    | false =>
      have hcn : (normalize c == n) = false := by
        have : n ≠ normalize c := by simpa using hnc
        simpa [beq_eq_false_iff_ne] using fun hh => this hh.symm
      simp [List.find?, hcn]

theorem lookup_buildNormCols (cols : List String) (n : String) :
    List.lookup n (buildNormCols cols) =
      cols.reverse.find? fun c => normalize c == n := by
  unfold buildNormCols
  rw [lookup_buildFrom n cols []]
  simp

/-- Every entry of the column dict pairs a column with its own normalized
name. -/
theorem mem_dictInsert {d : List (String × String)} {k v : String}
    {x : String × String} (hx : x ∈ dictInsert d k v) : x ∈ d ∨ x = (k, v) := by
  unfold dictInsert at hx
  by_cases h : d.any (fun kv => kv.1 == k) = true
  · rw [if_pos h] at hx
    obtain ⟨y, hy, hxy⟩ := List.mem_map.mp hx
    unfold updEntry at hxy
    by_cases hyk : (y.1 == k) = true
    · right
      rw [if_pos hyk] at hxy
      exact hxy.symm
    · left
      rw [if_neg hyk] at hxy
      rw [← hxy]
      exact hy
  · rw [if_neg h] at hx
    rcases List.mem_append.mp hx with h1 | h2
    · exact Or.inl h1
    · exact Or.inr (by simpa using h2)

theorem buildNormCols_key :
    ∀ (cols : List String) (d : List (String × String)),
      (∀ x ∈ d, normalize x.2 = x.1) →
      ∀ x ∈ cols.foldl (fun d c => dictInsert d (normalize c) c) d,
        normalize x.2 = x.1 := by
  intro cols
  induction cols with
  | nil =>
    intro d hd x hx
    exact hd x hx
  | cons c cs ih =>
    intro d hd x hx
    rw [List.foldl_cons] at hx
    refine ih (dictInsert d (normalize c) c) ?_ x hx
    intro y hy
    rcases mem_dictInsert hy with h1 | h2
    · exact hd y h1
    · rw [h2]

/-- The keys of the column dict are pairwise distinct. -/
theorem keys_nodup_buildFrom :
    ∀ (cols : List String) (d : List (String × String)),
      (d.map (fun x => x.1)).Nodup →
      ((cols.foldl (fun d c => dictInsert d (normalize c) c) d).map
        (fun x => x.1)).Nodup := by
  intro cols
  induction cols with
  | nil => intro d hd; exact hd
  | cons c cs ih =>
    intro d hd
    rw [List.foldl_cons]
    refine ih (dictInsert d (normalize c) c) ?_
    unfold dictInsert
    by_cases h : d.any (fun kv => kv.1 == normalize c) = true
    · rw [if_pos h]
      have : (d.map (updEntry (normalize c) c)).map (fun x => x.1) =
          d.map (fun x => x.1) := by
        rw [List.map_map]
        refine List.map_congr_left ?_
        intro a _
        by_cases ha : (a.1 == normalize c) = true
        · have h1 : a.1 = normalize c := by simpa using ha
          simp [Function.comp, updEntry, ha, h1]
        · simp [Function.comp, updEntry, ha]
      rw [this]
      exact hd
    · rw [if_neg h]
      rw [List.map_append]
      refine List.Nodup.append hd (by simp) ?_
      intro a ha hmem
      have ha2 : a = normalize c := by simpa using hmem
      subst ha2
      obtain ⟨y, hy, hya⟩ := List.mem_map.mp ha
      refine h (List.any_eq_true.mpr ⟨y, hy, ?_⟩)
      simp [hya]

theorem lookup_of_mem_nodupKeys {n r : String} :
    ∀ l : List (String × String), (l.map (fun x => x.1)).Nodup →
      (n, r) ∈ l → List.lookup n l = some r := by
  intro l
  induction l with
  | nil => intro _ h; simp at h
  | cons ab l ih =>
    intro hnd hmem
    obtain ⟨a, b⟩ := ab
    rw [List.map_cons, List.nodup_cons] at hnd
    rcases List.mem_cons.mp hmem with h1 | h2
    · obtain ⟨hn, hr⟩ := Prod.mk.injEq .. ▸ h1
      subst hn
      subst hr
      simp [List.lookup_cons]
    · have hna : n ≠ a := by
        intro hh
        subst hh
        exact hnd.1 (List.mem_map.mpr ⟨(n, r), h2, rfl⟩)
      have hbeq : (n == a) = false := by simpa [beq_eq_false_iff_ne] using hna
      rw [List.lookup_cons, hbeq]
      exact ih hnd.2 h2

theorem mem_of_lookup_eq_some {n r : String} :
    ∀ l : List (String × String), List.lookup n l = some r → (n, r) ∈ l := by
  intro l
  induction l with
  | nil => intro h; simp at h
  | cons ab l ih =>
    intro h
    obtain ⟨a, b⟩ := ab
    rw [List.lookup_cons] at h
    cases hna : n == a with
    | true =>
      rw [hna] at h
      have h1 : n = a := by simpa using hna
      have h2 : b = r := by simpa using h
      subst h1
      subst h2
      exact List.mem_cons_self _ _
    | false =>
      rw [hna] at h
      exact List.mem_cons_of_mem _ (ih h)

theorem find?_fst_of_lookup {k v : String} :
    ∀ l : List (String × String), List.lookup k l = some v →
      l.find? (fun p => p.1 == k) = some (k, v) := by
  intro l
  induction l with
  | nil => intro h; simp at h
  | cons ab l ih =>
    intro h
    obtain ⟨a, b⟩ := ab
    rw [List.lookup_cons] at h
    cases hka : k == a with
    | true =>
      rw [hka] at h
      have h1 : k = a := by simpa using hka
      have h2 : b = v := by simpa using h
      subst h1
      subst h2
      simp [List.find?]
    | false =>
      rw [hka] at h
      have hak : (a == k) = false := by
        have : k ≠ a := by simpa using hka
        simpa [beq_eq_false_iff_ne] using fun hh => this hh.symm
      rw [List.find?_cons_of_neg l (by simp [hak])]
      exact ih h

/-- Any column produced by the alias loop is a value of the
normalized-column dict. -/
theorem aliasFind_mem (as : List String) (ncols : List (String × String))
    (r : String) (h : aliasFind as ncols = some r) : ∃ n, (n, r) ∈ ncols := by
  unfold aliasFind at h
  obtain ⟨al, _, hsome⟩ := List.exists_of_findSome?_eq_some h
  cases hfind : ncols.find? (fun nc =>
      substrB (normalize al) nc.1 || substrB nc.1 (normalize al)) with
  | none =>
    rw [hfind] at hsome
    simp at hsome
  | some nc =>
    rw [hfind] at hsome
    have hr : nc.2 = r := by simpa using hsome
    refine ⟨nc.1, ?_⟩
    rw [← hr]
    simpa using List.mem_of_find?_eq_some hfind

/-- Any column chosen for a field is a value of the normalized-column
dict. -/
theorem hitOf_mem (ncols : List (String × String)) (f : String)
    (as : List String) (r : String) (h : hitOf ncols f as = some r) :
    ∃ n, (n, r) ∈ ncols := by
  unfold hitOf at h
  by_cases hf : (f == "email") = true
  · rw [if_pos hf] at h
    cases hfind : ncols.find? (fun nc => nc.1 == "email") with
    | none =>
      rw [hfind] at h
      exact aliasFind_mem as ncols r h
    | some nc =>
      rw [hfind] at h
      have hr : nc.2 = r := by simpa using h
      refine ⟨nc.1, ?_⟩
      rw [← hr]
      simpa using List.mem_of_find?_eq_some hfind
  · rw [if_neg hf] at h
    exact aliasFind_mem as ncols r h

/-- Shape of the detection fold: it only ever appends freshly detected
fields, whose field names follow `FIELD_MAP` order and whose columns are
values of the normalized-column dict. -/
theorem detect_foldl_shape (ncols : List (String × String)) :
    ∀ (fm : List (String × List String)) (d : List (String × String)),
      ∃ t, fm.foldl (detectStep ncols) d = d ++ t ∧
        List.Sublist (t.map (fun x => x.1)) (fm.map (fun x => x.1)) ∧
        ∀ x ∈ t, ∃ n, (n, x.2) ∈ ncols := by
  intro fm
  induction fm with
  | nil =>
    intro d
    exact ⟨[], by simp, by simp, by simp⟩
  | cons fa fm ih =>
    intro d
    rw [List.foldl_cons]
    cases hhit : hitOf ncols fa.1 fa.2 with
    | none =>
      obtain ⟨t, ht, hsub, hval⟩ := ih d
      rw [show detectStep ncols d fa = d from by simp [detectStep, hhit]]
      exact ⟨t, ht, hsub.trans (List.sublist_cons_self _ _), hval⟩
    | some real =>
      obtain ⟨t, ht, hsub, hval⟩ := ih (d ++ [(fa.1, real)])
      rw [show detectStep ncols d fa = d ++ [(fa.1, real)] from by
        simp [detectStep, hhit]]
      refine ⟨(fa.1, real) :: t, by simpa using ht, ?_, ?_⟩
      · simpa using List.Sublist.cons₂ fa.1 hsub
      · intro x hx
        rcases List.mem_cons.mp hx with h1 | h2
        · subst h1
          obtain ⟨n, hn⟩ := hitOf_mem ncols fa.1 fa.2 real hhit
          exact ⟨n, hn⟩
        · exact hval x h2

/-- C1 counterexample: on the single column `"mail"` — whose normalized
name is `"mail"`, not `"email"` — the Field Detector still maps the
`email` field to it through the alias loop, so the email field does NOT
require an exact normalized match and fuzzy fallback IS used. -/
theorem detect_email_fuzzy_fallback_cex :
    List.lookup "email" (detect_columns ["mail"]) = some "mail" ∧
    normalize "mail" ≠ "email" := by decide

/-- C1 (amended): whenever some column normalizes exactly to `"email"`,
the Field Detector maps the `email` field to a column whose normalized
name is exactly `"email"`; only when no such column exists does it fall
back to fuzzy alias matching for `email` (counterexample
`detect_email_fuzzy_fallback_cex`). -/
theorem detect_email_exact_when_exists (cols : List String)
    (h : ∃ c ∈ cols, normalize c = "email") :
    ∃ r, List.lookup "email" (detect_columns cols) = some r ∧
      normalize r = "email" := by
  have hex : ∃ c ∈ cols.reverse, (normalize c == "email") = true := by
    obtain ⟨c, hc, hn⟩ := h
    exact ⟨c, List.mem_reverse.mpr hc, by simp [hn]⟩
  have hsome : (cols.reverse.find? fun c => normalize c == "email").isSome :=
    List.find?_isSome.mpr hex
  obtain ⟨r0, hfind⟩ := Option.isSome_iff_exists.mp hsome
  have hr0 : normalize r0 = "email" := by
    have := List.find?_some hfind
    simpa using this
  have hlook : List.lookup "email" (buildNormCols cols) = some r0 := by
    rw [lookup_buildNormCols]
    exact hfind
  have hfind2 : (buildNormCols cols).find? (fun nc => nc.1 == "email")
      = some ("email", r0) := find?_fst_of_lookup (buildNormCols cols) hlook
  refine ⟨r0, ?_, hr0⟩
  unfold detect_columns FIELD_MAP
  rw [List.foldl_cons]
  have hstep : detectStep (buildNormCols cols) []
      ("email", ["email", "mail", "e-mail", "emailaddress", "emailid"])
      = [("email", r0)] := by
    simp [detectStep, hitOf, hfind2]
  rw [hstep]
  obtain ⟨t, ht, _, _⟩ := detect_foldl_shape (buildNormCols cols)
    [("name", ["name", "fullname", "full name", "nama", "nama lengkap"]),
     ("company", ["company", "organization", "org", "perusahaan", "instansi"]),
     ("position", ["position", "jobtitle", "title", "jabatan", "role"])]
    [("email", r0)]
  rw [ht]
  simp

/-- Witness for the amended C1 at `cols = ["Email"]`. -/
theorem detect_email_exact_when_exists_witness :
    (∃ c ∈ (["Email"] : List String), normalize c = "email") ∧
    ∃ r, List.lookup "email" (detect_columns ["Email"]) = some r ∧
      normalize r = "email" :=
  ⟨by decide, detect_email_exact_when_exists ["Email"] (by decide)⟩

/-- C2 counterexample: on the single column `"a"`, the alias loop maps
the distinct fields `name` and `company` (and in fact also `email` and
`position`) all to the column `"a"`, so the FieldMapping is not
injective. -/
theorem detect_not_injective_cex :
    List.lookup "name" (detect_columns ["a"]) = some "a" ∧
    List.lookup "company" (detect_columns ["a"]) = some "a" ∧
    ("name" : String) ≠ "company" := by decide

/-- C2 (amended): the FieldMapping produced by the Field Detector is a
function on semantic fields — each of the four fields is assigned at most
one column and appears at most once, in `FIELD_MAP` order — but it is NOT
necessarily injective: two distinct semantic fields can be mapped to the
same dataset column (counterexample `detect_not_injective_cex`). -/
theorem detect_fields_assigned_once (cols : List String) :
    List.Sublist ((detect_columns cols).map (fun x => x.1))
      ["email", "name", "company", "position"] ∧
    ((detect_columns cols).map (fun x => x.1)).Nodup := by
  obtain ⟨t, ht, hsub, _⟩ := detect_foldl_shape (buildNormCols cols) FIELD_MAP []
  have hdc : detect_columns cols = t := by
    unfold detect_columns
    rw [ht]
    simp
  have hfm : FIELD_MAP.map (fun x => x.1) =
      ["email", "name", "company", "position"] := rfl
  rw [hdc]
  rw [hfm] at hsub
  exact ⟨hsub, List.Nodup.sublist hsub (by decide)⟩

/-- C9: any column the Field Detector maps a field to is the LAST dataset
column bearing its normalized name: when several columns normalize to the
same string, the dict comprehension keeps only the later one as value, so
earlier duplicate-normalizing columns can never be mapped, for any
field. -/
theorem detect_maps_last_duplicate (cols : List String) (f r : String)
    (h : List.lookup f (detect_columns cols) = some r) :
    cols.reverse.find? (fun c => normalize c == normalize r) = some r := by
  have hmem : (f, r) ∈ detect_columns cols := mem_of_lookup_eq_some _ h
  obtain ⟨t, ht, _, hval⟩ := detect_foldl_shape (buildNormCols cols) FIELD_MAP []
  have hmem2 : (f, r) ∈ t := by
    unfold detect_columns at hmem
    rw [ht] at hmem
    simpa using hmem
  obtain ⟨n, hn⟩ := hval (f, r) hmem2
  have hkey : normalize r = n :=
    buildNormCols_key cols [] (by simp) (n, r) hn
  have hnodup := keys_nodup_buildFrom cols [] (by simp)
  have hlook : List.lookup n (buildNormCols cols) = some r :=
    lookup_of_mem_nodupKeys (buildNormCols cols) hnodup hn
  rw [lookup_buildNormCols] at hlook
  rw [hkey]
  exact hlook

/-- Witness for C9 at `cols = ["E-Mail", "email"]`: both columns
normalize to `"email"` and the detector maps `email` to the later column
`"email"`. -/
theorem detect_maps_last_duplicate_witness :
    List.lookup "email" (detect_columns ["E-Mail", "email"]) = some "email" ∧
    (["E-Mail", "email"] : List String).reverse.find?
      (fun c => normalize c == normalize "email") = some "email" :=
  ⟨by decide,
    detect_maps_last_duplicate ["E-Mail", "email"] "email" "email" (by decide)⟩

/-! ## Lemmas about the dispatch loop -/

/-- Every record appended while processing a row carries that row's
index. -/
theorem rowDispatch_row_eq (oracle : Nat → Except String Unit)
    (clock : Nat → Nat) (mapping : List (String × String))
    (emailCol : String) (template : List Char) (idx : Nat)
    (row : String → Option String) :
    ∀ e ∈ (rowDispatch oracle clock mapping emailCol template idx row).1,
      e.row = idx := by
  intro e he
  simp only [rowDispatch] at he
  by_cases hemp : (extract (cellStr (row emailCol))).isEmpty = true
  · rw [if_pos hemp] at he
    simp only [List.mem_singleton] at he
    simp [he]
  · rw [if_neg hemp] at he
    simp only at he
    obtain ⟨ke, _, hrec⟩ := List.mem_map.mp he
    cases hres : oracle ke.1 <;> rw [hres] at hrec <;> rw [← hrec] <;> rfl

/-- The number of records appended for a row does not depend on the send
outcomes. -/
theorem rowDispatch_length_oracle (o1 o2 : Nat → Except String Unit)
    (clock : Nat → Nat) (mapping : List (String × String))
    (emailCol : String) (template : List Char) (idx : Nat)
    (row : String → Option String) :
    (rowDispatch o1 clock mapping emailCol template idx row).1.length =
      (rowDispatch o2 clock mapping emailCol template idx row).1.length := by
  simp only [rowDispatch]
  by_cases hemp : (extract (cellStr (row emailCol))).isEmpty = true
  · rw [if_pos hemp, if_pos hemp]
  · rw [if_neg hemp, if_neg hemp]
    simp

theorem dispatch_log_length_oracle_irrel (mapping : List (String × String))
    (emailCol : String) (template : List Char)
    (orc2 orc3 : Nat → Nat → Except String Unit) (clk : Nat → Nat → Nat) :
    ∀ L : List (Nat × (String → Option String)),
      ((L.map fun ir => rowDispatch (orc2 ir.1) (clk ir.1) mapping emailCol
        template ir.1 ir.2).flatMap (fun b => b.1)).length =
      ((L.map fun ir => rowDispatch (orc3 ir.1) (clk ir.1) mapping emailCol
        template ir.1 ir.2).flatMap (fun b => b.1)).length := by
  intro L
  induction L with
  | nil => rfl
  | cons ir L ih =>
    simp only [List.map_cons, List.flatMap_cons, List.length_append]
    rw [ih, rowDispatch_length_oracle (orc2 ir.1) (orc3 ir.1) (clk ir.1)
      mapping emailCol template ir.1 ir.2]

theorem dispatch_log_filter_other_rows (mapping : List (String × String))
    (emailCol : String) (template : List Char)
    (orc2 orc3 : Nat → Nat → Except String Unit) (clk : Nat → Nat → Nat)
    (j : Nat) (horc : ∀ i, i ≠ j → orc2 i = orc3 i) :
    ∀ L : List (Nat × (String → Option String)),
      ((L.map fun ir => rowDispatch (orc2 ir.1) (clk ir.1) mapping emailCol
        template ir.1 ir.2).flatMap (fun b => b.1)).filter
          (fun e => e.row != j) =
      ((L.map fun ir => rowDispatch (orc3 ir.1) (clk ir.1) mapping emailCol
        template ir.1 ir.2).flatMap (fun b => b.1)).filter
          (fun e => e.row != j) := by
  intro L
  induction L with
  | nil => rfl
  | cons ir L ih =>
    simp only [List.map_cons, List.flatMap_cons, List.filter_append]
    rw [ih]
    congr 1
    by_cases hij : ir.1 = j
    · have h2 : (rowDispatch (orc2 ir.1) (clk ir.1) mapping emailCol template
          ir.1 ir.2).1.filter (fun e => e.row != j) = [] := by
        rw [List.filter_eq_nil_iff]
        intro e he
        have hr := rowDispatch_row_eq (orc2 ir.1) (clk ir.1) mapping emailCol
          template ir.1 ir.2 e he
        simp [hr, hij]
      have h3 : (rowDispatch (orc3 ir.1) (clk ir.1) mapping emailCol template
          ir.1 ir.2).1.filter (fun e => e.row != j) = [] := by
        rw [List.filter_eq_nil_iff]
        intro e he
        have hr := rowDispatch_row_eq (orc3 ir.1) (clk ir.1) mapping emailCol
          template ir.1 ir.2 e he
        simp [hr, hij]
      rw [h2, h3]
    · rw [horc ir.1 hij]

/-- C3 counterexample: a row whose email cell extracts to zero addresses
appends the record `[idx, "", "NO_EMAIL", "SKIPPED", ts]`: its status
literal is `"NO_EMAIL"` (with detail `"SKIPPED"`), not
`"SKIPPED_NO_ADDRESS"`, so no record ever carries the status the
specification names. -/
theorem skipped_row_status_cex :
    rowDispatch (fun _ => .ok ()) (fun k => k) [("email", "Email")] "Email"
      "hi".data 0 (fun _ => some "no address here") =
      ([⟨0, "", "NO_EMAIL", "SKIPPED", 0⟩], []) ∧
    ("NO_EMAIL" : String) ≠ "SKIPPED_NO_ADDRESS" := by decide

/-- C3 (amended): during dispatch, a row whose email-mapped cell yields
zero extracted addresses produces exactly one record — with status
`"NO_EMAIL"` and details `"SKIPPED"` (the status vocabulary being
`"SENT"`, `"FAILED"`, `"NO_EMAIL"`) — and no send is attempted for that
row. -/
theorem row_no_address_skipped (oracle : Nat → Except String Unit)
    (clock : Nat → Nat) (mapping : List (String × String))
    (emailCol : String) (template : List Char) (idx : Nat)
    (row : String → Option String)
    (h : extract (cellStr (row emailCol)) = []) :
    rowDispatch oracle clock mapping emailCol template idx row =
      ([⟨idx, "", "NO_EMAIL", "SKIPPED", clock 0⟩], []) ∧
    ∀ (row2 : String → Option String) e,
      e ∈ (rowDispatch oracle clock mapping emailCol template idx row2).1 →
      e.status = "SENT" ∨ e.status = "FAILED" ∨ e.status = "NO_EMAIL" := by
  constructor
  · simp [rowDispatch, h]
  · intro row2 e he
    simp only [rowDispatch] at he
    by_cases hemp : (extract (cellStr (row2 emailCol))).isEmpty = true
    · rw [if_pos hemp] at he
      simp only [List.mem_singleton] at he
      simp [he]
    · rw [if_neg hemp] at he
      simp only at he
      obtain ⟨ke, _, hrec⟩ := List.mem_map.mp he
      cases hres : oracle ke.1 with
      | ok u =>
        rw [hres] at hrec
        rw [← hrec]
        left
        rfl
      | error m =>
        rw [hres] at hrec
        rw [← hrec]
        right
        left
        rfl

/-- Witness for the amended C3. -/
theorem row_no_address_skipped_witness :
    extract (cellStr ((fun _ : String => some "no at sign") "Email")) = [] ∧
    rowDispatch (fun _ => .ok ()) (fun k => k) [("email", "Email")] "Email"
        "hi".data 0 (fun _ => some "no at sign") =
      ([⟨0, "", "NO_EMAIL", "SKIPPED", 0⟩], []) := by
  refine ⟨by decide, ?_⟩
  exact (row_no_address_skipped (fun _ => .ok ()) (fun k => k)
    [("email", "Email")] "Email" "hi".data 0 (fun _ => some "no at sign")
    (by decide)).1

/-- C4: processing a row with N extracted addresses invokes the send
capability exactly once per address, in extraction order (the trace lists
each address exactly once with the rendered body), and appends exactly N
records — the k-th `SENT`/`OK` on success and `FAILED` with the raised
message as detail on error, determined solely by that address's own
outcome, so no retry happens and a failure aborts neither the rest of the
row nor the rest of the run: changing the outcomes of one row leaves the
records of all other rows and the total record count unchanged. -/
theorem send_loop_per_address (oracle : Nat → Except String Unit)
    (clock : Nat → Nat) (mapping : List (String × String))
    (emailCol : String) (template : List Char) (idx : Nat)
    (row : String → Option String)
    (h : extract (cellStr (row emailCol)) ≠ []) :
    (rowDispatch oracle clock mapping emailCol template idx row).2 =
      (extract (cellStr (row emailCol))).map
        (fun e => (idx, e, renderBody mapping row template)) ∧
    (rowDispatch oracle clock mapping emailCol template idx row).1.length =
      (extract (cellStr (row emailCol))).length ∧
    (∀ k e, (extract (cellStr (row emailCol)))[k]? = some e →
      (rowDispatch oracle clock mapping emailCol template idx row).1[k]? =
        some (sendRecord idx e (oracle k) (clock k))) ∧
    (∀ (orc2 orc3 : Nat → Nat → Except String Unit) (clk : Nat → Nat → Nat)
      (rows : List (String → Option String)) (j : Nat),
      (∀ i, i ≠ j → orc2 i = orc3 i) →
      (dispatch orc2 clk mapping emailCol template rows).1.length =
        (dispatch orc3 clk mapping emailCol template rows).1.length ∧
      (dispatch orc2 clk mapping emailCol template rows).1.filter
          (fun e => e.row != j) =
        (dispatch orc3 clk mapping emailCol template rows).1.filter
          (fun e => e.row != j)) := by
  have hemp : (extract (cellStr (row emailCol))).isEmpty = false := by
    cases hE : (extract (cellStr (row emailCol))).isEmpty
    · rfl
    · exact absurd (List.isEmpty_iff.mp hE) h
  refine ⟨?_, ?_, ?_, ?_⟩
  · simp [rowDispatch, hemp]
  · simp [rowDispatch, hemp]
  · intro k e hk
    simp only [rowDispatch, hemp, Bool.false_eq_true, if_false]
    rw [List.getElem?_map, List.getElem?_enum, hk]
    rfl
  · intro orc2 orc3 clk rows j horc
    exact ⟨dispatch_log_length_oracle_irrel mapping emailCol template
        orc2 orc3 clk rows.enum,
      dispatch_log_filter_other_rows mapping emailCol template
        orc2 orc3 clk j horc rows.enum⟩

/-- Witness for C4 on a row with two addresses where the second send
fails. -/
theorem send_loop_per_address_witness :
    extract (cellStr ((fun _ : String => some "a@x b@y") "Email")) ≠ [] ∧
    (rowDispatch (fun k => if k = 0 then .ok () else .error "boom")
      (fun k => k) [("email", "Email")] "Email" "m".data 7
      (fun _ => some "a@x b@y")).2 =
      (extract (cellStr ((fun _ : String => some "a@x b@y") "Email"))).map
        (fun e => (7, e, renderBody [("email", "Email")]
          (fun _ => some "a@x b@y") "m".data)) :=
  ⟨by decide, (send_loop_per_address _ _ _ _ _ _ _ (by decide)).1⟩

/-! ## Attachment staging and cleanup -/

/-- C7 counterexample: when staging the second attachment raises after
`"t1"` was staged, the handler stops at once — the trace records no
`unlinked` event and `"t1"` is left existing — so staged temporary files
are NOT cleaned up on an attachment-staging failure (the login-failure
branch likewise performs no cleanup). -/
theorem staging_failure_no_cleanup_cex :
    sendNow true [some "t1", none] true (fun _ _ => .ok ()) (fun _ _ => 0)
      [("email", "Email")] "Email" "m".data [] (fun _ => true) =
      ([.staged "t1", .stopped], ["t1"], []) ∧
    Ev.unlinked "t1" ∉ ([Ev.staged "t1", Ev.stopped] : List Ev) ∧
    (["t1"] : List String) ≠ [] := by decide

/-- C7 (amended): in a run that passes the preconditions, stages all
attachments and logs in, deletion of the staged temporary files is
attempted only after the last send attempt — every `unlinked` event
follows all `sendCall` events in the trace, and exactly the staged paths
whose deletion succeeds disappear; but on ANY early termination
(precondition failure, attachment-staging failure, or login failure after
staging) no deletion is attempted and the already-staged files are left
behind. -/
theorem sendNow_cleanup_order (pre : Bool) (stageOut : List (Option String))
    (loginOk : Bool) (oracle : Nat → Nat → Except String Unit)
    (clock : Nat → Nat → Nat) (mapping : List (String × String))
    (emailCol : String) (template : List Char)
    (rows : List (String → Option String)) (unlinkOk : String → Bool) :
    (pre = true → (stageFiles stageOut).2 = true → loginOk = true →
      sendNow pre stageOut loginOk oracle clock mapping emailCol template
          rows unlinkOk =
        ((stageFiles stageOut).1.map Ev.staged ++
          (dispatch oracle clock mapping emailCol template rows).2.map
            (fun c => Ev.sendCall c.1 c.2.1) ++
          (stageFiles stageOut).1.map Ev.unlinked,
         (stageFiles stageOut).1.filter (fun p => !unlinkOk p),
         (dispatch oracle clock mapping emailCol template rows).1)) ∧
    (pre = true → (stageFiles stageOut).2 = false →
      sendNow pre stageOut loginOk oracle clock mapping emailCol template
          rows unlinkOk =
        ((stageFiles stageOut).1.map Ev.staged ++ [.stopped],
         (stageFiles stageOut).1, [])) ∧
    (pre = true → (stageFiles stageOut).2 = true → loginOk = false →
      sendNow pre stageOut loginOk oracle clock mapping emailCol template
          rows unlinkOk =
        ((stageFiles stageOut).1.map Ev.staged ++ [.stopped],
         (stageFiles stageOut).1, [])) ∧
    (pre = false →
      sendNow pre stageOut loginOk oracle clock mapping emailCol template
          rows unlinkOk = ([.stopped], [], [])) := by
  refine ⟨?_, ?_, ?_, ?_⟩
  · intro h1 h2 h3
    subst h1
    subst h3
    simp [sendNow, h2]
  · intro h1 h2
    subst h1
    simp [sendNow, h2]
  · intro h1 h2 h3
    subst h1
    subst h3
    simp [sendNow, h2]
  · intro h1
    subst h1
    simp [sendNow]

/-- Witness for the amended C7: a completed run with two staged files and
one row stages, sends, then unlinks, ending with no leftover files. -/
theorem sendNow_cleanup_order_witness :
    ((true : Bool) = true ∧ (stageFiles [some "t1", some "t2"]).2 = true) ∧
    sendNow true [some "t1", some "t2"] true (fun _ _ => .ok ())
        (fun _ _ => 5) [("email", "Email")] "Email" "m".data
        [fun _ => some "a@x"] (fun _ => true) =
      ((stageFiles [some "t1", some "t2"]).1.map Ev.staged ++
        (dispatch (fun _ _ => .ok ()) (fun _ _ => 5) [("email", "Email")]
          "Email" "m".data [fun _ => some "a@x"]).2.map
          (fun c => Ev.sendCall c.1 c.2.1) ++
        (stageFiles [some "t1", some "t2"]).1.map Ev.unlinked,
       (stageFiles [some "t1", some "t2"]).1.filter
         (fun p => !(fun _ : String => true) p),
       (dispatch (fun _ _ => .ok ()) (fun _ _ => 5) [("email", "Email")]
         "Email" "m".data [fun _ => some "a@x"]).1) :=
  ⟨⟨rfl, by decide⟩,
    (sendNow_cleanup_order true [some "t1", some "t2"] true (fun _ _ => .ok ())
      (fun _ _ => 5) [("email", "Email")] "Email" "m".data
      [fun _ => some "a@x"] (fun _ => true)).1 rfl (by decide) rfl⟩

/-! ## Log export -/

theorem mapM_parseRow_serialize :
    ∀ logs : List LogEntry,
      List.mapM parseRow (logs.map serializeLog) = some logs := by
  intro logs
  induction logs with
  | nil => rfl
  | cons e logs ih =>
    rw [List.map_cons, List.mapM_cons]
    have hp : parseRow (serializeLog e) = some e := rfl
    rw [hp, ih]
    rfl

/-- C8: exporting an ordered list of N records (any N, including 0)
produces a sheet whose first row is the fixed header
`[Row, Email, Status, Details, Timestamp]` and whose data rows are
exactly the N records with their five fields, in arrival order: the sheet
has N+1 rows and re-reading it restores the record list exactly. -/
theorem export_logs_roundtrip (logs : List LogEntry) :
    (export_logs_excel logs).length = logs.length + 1 ∧
    (export_logs_excel logs).head? = some headerCells ∧
    parseExport (export_logs_excel logs) = some logs := by
  refine ⟨by simp [export_logs_excel], by simp [export_logs_excel], ?_⟩
  have h1 : parseExport (export_logs_excel logs) =
      List.mapM parseRow (logs.map serializeLog) := by
    simp only [export_logs_excel, parseExport, if_true, eq_self_iff_true]
  rw [h1, mapM_parseRow_serialize]

end EmailBlaster
